import Mathlib

/-!
Shallow embedding of `stim::MeasureRecordBatchWriter`
(src/src/stim/io/measure_record_batch_writer.h).

The batch writer fans incoming sample batches out to a vector of
per-stream `MeasureRecordWriter`s.  The per-stream writers, the
`SampleFormat` enumeration, the `simd_bit_table` storage engine and the
body of `write_end` live outside the given header; where a claim needs
them they are modelled from the spec and marked as such in their doc
comments.  Byte buffers are `List Nat` (each entry meant to be < 256);
bit k of a buffer is bit `k % 8` of byte `k / 8`, matching
`simd_bits_range_ref::operator[]` (`(u8[k >> 3] >> (k & 7)) & 1`).
-/

namespace StimBatch

/-- Modelled from the spec: the `SampleFormat` enumeration is declared in the
external `measure_record_writer.h` header, not under src/.  The spec models
two formats — the serial family and `TRANSPOSED_PACKED_64`
(= `SAMPLE_FORMAT_PTB64`) — and treats the remaining concrete members as out
of scope; the code dispatches only on equality with `SAMPLE_FORMAT_PTB64`. -/
inductive SampleFormat where
  | SAMPLE_FORMAT_01
  | SAMPLE_FORMAT_B8
  | SAMPLE_FORMAT_PTB64
  | SAMPLE_FORMAT_HITS
  | SAMPLE_FORMAT_R8
  | SAMPLE_FORMAT_DETS
deriving DecidableEq, Repr

/-- One call received by a per-stream `MeasureRecordWriter`: either
`write_bit(b)` or `write_bytes(bs)`. -/
inductive WriterEvent where
  | writeBit (b : Bool)
  | writeBytes (bs : List Nat)
deriving DecidableEq, Repr

/-- Bit `k` of a little-endian-per-byte buffer, as in
`simd_bits_range_ref::operator[]`: bit `k % 8` of byte `k / 8`. -/
def bitAt (bs : List Nat) (k : Nat) : Bool :=
  Nat.testBit (bs.getD (k / 8) 0) (k % 8)

/-- The `len` bytes of a buffer starting at byte offset `off`
(reads past the end give 0; in-bounds use is a caller precondition). -/
def bytesRange (bs : List Nat) (off len : Nat) : List Nat :=
  (List.range len).map (fun i => bs.getD (off + i) 0)

/-- The 8 bits of one byte, least significant first. -/
def byteBits (v : Nat) : List Bool :=
  (List.range 8).map (fun i => Nat.testBit v i)

/-- Pack 8 bits (least significant first) into one byte value. -/
def packBits (f : Nat → Bool) : Nat :=
  (List.range 8).foldr (fun i acc => (if f i then 1 else 0) + 2 * acc) 0

/-- Raw byte buffer and padded per-major-row byte stride of a
`simd_bit_table` (`data.u8` and `num_minor_u8_padded()`). -/
structure BitTable where
  data : List Nat
  num_minor_u8_padded : Nat
deriving DecidableEq, Repr

/-- Modelled from the spec: `simd_bit_table`'s logical content is external to
the given header.  Per the BitTable contract, minor index `minor` of major row
`major` is bit `minor % 8` of byte `minor / 8` within that row, and major row
`major` starts at byte `num_minor_u8_padded * major`. -/
def tableBit (t : BitTable) (major minor : Nat) : Bool :=
  bitAt t.data (8 * t.num_minor_u8_padded * major + minor)

/-- Modelled from the spec: `simd_bit_table::transposed()` is external to the
given header; per the spec it returns a writer-major relayout preserving
logical content, so bit `j` of transposed row `k` is the table's logical bit
at major `j`, minor `k`.  `transposed_row t k n` is the first `n` bytes of
transposed row `k`. -/
def transposed_row (t : BitTable) (k : Nat) (numBytes : Nat) : List Nat :=
  (List.range numBytes).map (fun b => packBits (fun i => tableBit t (8 * b + i) k))

/-- State of a `MeasureRecordBatchWriter`: its fixed output format and, for
each writer slot `k`, the sequence of calls delivered to that writer so far.
The writer count is `events.length`. -/
structure BatchWriter where
  output_format : SampleFormat
  events : List (List WriterEvent)
deriving DecidableEq, Repr

/-- Append, for every writer index `k`, the events `f k` to writer `k`'s
stream (the per-writer fan-out of one batch call). -/
def appendEach : List (List WriterEvent) → (Nat → List WriterEvent) → List (List WriterEvent)
  | [], _ => []
  | es :: rest, f => (es ++ f 0) :: appendEach rest (fun k => f (k + 1))

/-- `MeasureRecordBatchWriter::batch_write_bit`.  Under
`SAMPLE_FORMAT_PTB64`, a byte pointer walks the row and each writer receives
`write_bytes` of the next 8 bytes (writer `k` gets bytes `[8k, 8k+8)`);
otherwise writer `k` receives `write_bit(bits[k])`. -/
def batch_write_bit (s : BatchWriter) (bits : List Nat) : BatchWriter :=
  if s.output_format = SampleFormat.SAMPLE_FORMAT_PTB64 then
    let f := fun k => [WriterEvent.writeBytes (bytesRange bits (8 * k) 8)]
    { s with events := appendEach s.events f }
  else
    let f := fun k => [WriterEvent.writeBit (bitAt bits k)]
    { s with events := appendEach s.events f }

/-- `MeasureRecordBatchWriter::batch_write_bytes`.  Under
`SAMPLE_FORMAT_PTB64`, writer `k` receives, for each `w < num_major_u64`,
`write_bytes` of the 8 bytes at buffer offset
`k * 8 + num_minor_u8_padded() * w`; otherwise the table is transposed and
writer `k` receives one `write_bytes` of the first `num_major_u64 * 8` bytes
of transposed row `k`. -/
def batch_write_bytes (s : BatchWriter) (t : BitTable) (num_major_u64 : Nat) : BatchWriter :=
  if s.output_format = SampleFormat.SAMPLE_FORMAT_PTB64 then
    let f := fun k => (List.range num_major_u64).map
      (fun w => WriterEvent.writeBytes (bytesRange t.data (k * 8 + t.num_minor_u8_padded * w) 8))
    { s with events := appendEach s.events f }
  else
    let f := fun k => [WriterEvent.writeBytes (transposed_row t k (num_major_u64 * 8))]
    { s with events := appendEach s.events f }

/-- The stream of sample bits a writer extracts from one delivered call:
`write_bit b` carries the single bit `b`; `write_bytes bs` carries the bits
of `bs`, least significant bit of each byte first. -/
def eventBits : WriterEvent → List Bool
  | WriterEvent.writeBit b => [b]
  | WriterEvent.writeBytes bs => bs.flatMap byteBits

/-- All sample bits delivered to one writer, in order. -/
def deliveredBits (es : List WriterEvent) : List Bool :=
  es.flatMap eventBits

/-- Number of samples one delivered call appends to a writer's record. -/
def eventSampleCount : WriterEvent → Nat
  | WriterEvent.writeBit _ => 1
  | WriterEvent.writeBytes bs => 8 * bs.length

/-- Number of samples recorded by one writer so far. -/
def recordedSamples (es : List WriterEvent) : Nat :=
  (es.map eventSampleCount).sum

/-- One sample-append call to the batch writer: a single-row call or a bulk
batch call. -/
inductive Op where
  | bit (row : List Nat)
  | bytes (t : BitTable) (num_major_u64 : Nat)

/-- Apply one sample-append call. -/
def applyOp (s : BatchWriter) : Op → BatchWriter
  | Op.bit row => batch_write_bit s row
  | Op.bytes t n => batch_write_bytes s t n

/-- Apply a sequence of sample-append calls (an arbitrary interleaving of
single-row and bulk calls). -/
def applyOps (s : BatchWriter) (ops : List Op) : BatchWriter :=
  ops.foldl applyOp s

/-- A freshly constructed batch writer with `n` writer slots: per the spec,
slot 0 is bound to the output channel and slots `1..n-1` to fresh
SpillResources, all with empty streams. -/
def initWriter (fmt : SampleFormat) (n : Nat) : BatchWriter :=
  { output_format := fmt, events := List.replicate n [] }

/-- Modelled from the spec: the body of `write_end` is not under src/ (the
header only declares it).  Per the spec it finalizes every writer, then in
writer-index order `1..N-1` copies each SpillResource's full byte content
onto the output channel, contiguously, and releases the SpillResources.
Writer 0 writes directly to the channel, so the channel's final content is
writer 0's encoded bytes followed by the others' encoded bytes in index
order.  The per-writer encoding is the external StreamWriter's framing,
abstracted as `encode`. -/
def write_end_out (encode : List WriterEvent → List Nat) (s : BatchWriter) : List Nat :=
  match s.events with
  | [] => []
  | e0 :: rest => encode e0 ++ (rest.map encode).flatten

/-- The spec's reference implementation: write all `N` writers to separate
buffers and concatenate them afterward in index order. -/
def reference_out (encode : List WriterEvent → List Nat) (s : BatchWriter) : List Nat :=
  (s.events.map encode).flatten

/-! Basic lemmas about the fan-out. -/

theorem appendEach_length (evs : List (List WriterEvent)) (f : Nat → List WriterEvent) :
    (appendEach evs f).length = evs.length := by
  induction evs generalizing f with
  | nil => rfl
  | cons es rest ih => simp [appendEach, ih]

theorem appendEach_getD (evs : List (List WriterEvent)) (f : Nat → List WriterEvent)
    (k : Nat) (hk : k < evs.length) :
    (appendEach evs f).getD k [] = evs.getD k [] ++ f k := by
  induction evs generalizing f k with
  | nil => simp at hk
  | cons es rest ih =>
    cases k with
    | zero => rfl
    | succ k => simpa [appendEach] using ih (fun j => f (j + 1)) k (by simpa using hk)

theorem appendEach_id (evs : List (List WriterEvent)) (f : Nat → List WriterEvent)
    (hf : ∀ k, f k = []) : appendEach evs f = evs := by
  induction evs generalizing f with
  | nil => rfl
  | cons es rest ih =>
    show (es ++ f 0) :: appendEach rest (fun k => f (k + 1)) = es :: rest
    rw [hf 0, List.append_nil, ih (fun j => f (j + 1)) (fun j => hf (j + 1))]

theorem batch_write_bit_format (s : BatchWriter) (bits : List Nat) :
    (batch_write_bit s bits).output_format = s.output_format := by
  unfold batch_write_bit; split <;> rfl

theorem batch_write_bit_length (s : BatchWriter) (bits : List Nat) :
    (batch_write_bit s bits).events.length = s.events.length := by
  unfold batch_write_bit; split <;> simp [appendEach_length]

theorem batch_write_bytes_format (s : BatchWriter) (t : BitTable) (n : Nat) :
    (batch_write_bytes s t n).output_format = s.output_format := by
  unfold batch_write_bytes; split <;> rfl

theorem batch_write_bytes_length (s : BatchWriter) (t : BitTable) (n : Nat) :
    (batch_write_bytes s t n).events.length = s.events.length := by
  unfold batch_write_bytes; split <;> simp [appendEach_length]

theorem applyOps_format (s : BatchWriter) (ops : List Op) :
    (applyOps s ops).output_format = s.output_format := by
  induction ops generalizing s with
  | nil => rfl
  | cons op rest ih =>
    cases op with
    | bit row => simpa [applyOps, applyOp, List.foldl_cons] using
        (ih (batch_write_bit s row)).trans (batch_write_bit_format s row)
    | bytes t n => simpa [applyOps, applyOp, List.foldl_cons] using
        (ih (batch_write_bytes s t n)).trans (batch_write_bytes_format s t n)

theorem applyOps_length (s : BatchWriter) (ops : List Op) :
    (applyOps s ops).events.length = s.events.length := by
  induction ops generalizing s with
  | nil => rfl
  | cons op rest ih =>
    cases op with
    | bit row => simpa [applyOps, applyOp, List.foldl_cons] using
        (ih (batch_write_bit s row)).trans (batch_write_bit_length s row)
    | bytes t n => simpa [applyOps, applyOp, List.foldl_cons] using
        (ih (batch_write_bytes s t n)).trans (batch_write_bytes_length s t n)

/-- Per-writer effect of `batch_write_bit` under `SAMPLE_FORMAT_PTB64`. -/
theorem batch_write_bit_ptb64_getD (s : BatchWriter) (bits : List Nat)
    (hfmt : s.output_format = SampleFormat.SAMPLE_FORMAT_PTB64)
    (k : Nat) (hk : k < s.events.length) :
    (batch_write_bit s bits).events.getD k [] =
      s.events.getD k [] ++ [WriterEvent.writeBytes (bytesRange bits (8 * k) 8)] := by
  unfold batch_write_bit
  rw [if_pos hfmt]
  exact appendEach_getD s.events _ k hk

/-- Per-writer effect of `batch_write_bit` under any other format. -/
theorem batch_write_bit_serial_getD (s : BatchWriter) (bits : List Nat)
    (hfmt : s.output_format ≠ SampleFormat.SAMPLE_FORMAT_PTB64)
    (k : Nat) (hk : k < s.events.length) :
    (batch_write_bit s bits).events.getD k [] =
      s.events.getD k [] ++ [WriterEvent.writeBit (bitAt bits k)] := by
  unfold batch_write_bit
  rw [if_neg hfmt]
  exact appendEach_getD s.events _ k hk

/-- Per-writer effect of `batch_write_bytes` under `SAMPLE_FORMAT_PTB64`. -/
theorem batch_write_bytes_ptb64_getD (s : BatchWriter) (t : BitTable) (n : Nat)
    (hfmt : s.output_format = SampleFormat.SAMPLE_FORMAT_PTB64)
    (k : Nat) (hk : k < s.events.length) :
    (batch_write_bytes s t n).events.getD k [] =
      s.events.getD k [] ++ (List.range n).map
        (fun w => WriterEvent.writeBytes (bytesRange t.data (k * 8 + t.num_minor_u8_padded * w) 8)) := by
  unfold batch_write_bytes
  rw [if_pos hfmt]
  exact appendEach_getD s.events _ k hk

/-- Per-writer effect of `batch_write_bytes` under any other format. -/
theorem batch_write_bytes_serial_getD (s : BatchWriter) (t : BitTable) (n : Nat)
    (hfmt : s.output_format ≠ SampleFormat.SAMPLE_FORMAT_PTB64)
    (k : Nat) (hk : k < s.events.length) :
    (batch_write_bytes s t n).events.getD k [] =
      s.events.getD k [] ++ [WriterEvent.writeBytes (transposed_row t k (n * 8))] := by
  unfold batch_write_bytes
  rw [if_neg hfmt]
  exact appendEach_getD s.events _ k hk

/-! Bit-level lemmas. -/

set_option maxHeartbeats 1000000 in
theorem byteBits_packBits (f : Nat → Bool) : byteBits (packBits f) = (List.range 8).map f := by
  have e : List.range 8 = [0, 1, 2, 3, 4, 5, 6, 7] := rfl
  rcases h0 : f 0 <;> rcases h1 : f 1 <;> rcases h2 : f 2 <;> rcases h3 : f 3 <;>
    rcases h4 : f 4 <;> rcases h5 : f 5 <;> rcases h6 : f 6 <;> rcases h7 : f 7 <;>
    simp [byteBits, packBits, e, h0, h1, h2, h3, h4, h5, h6, h7] <;> decide

theorem deliveredBits_append (a b : List WriterEvent) :
    deliveredBits (a ++ b) = deliveredBits a ++ deliveredBits b :=
  List.flatMap_append a b eventBits

theorem deliveredBits_writeBitList (rows : List (List Nat)) (k : Nat) :
    deliveredBits (rows.map fun r => WriterEvent.writeBit (bitAt r k)) =
      rows.map (fun r => bitAt r k) := by
  unfold deliveredBits
  rw [List.flatMap_map]
  exact (List.map_eq_flatMap _ rows).symm

theorem range_mul_eight (n : Nat) :
    List.range (n * 8) =
      (List.range n).flatMap (fun b => (List.range 8).map (fun i => 8 * b + i)) := by
  induction n with
  | zero => rfl
  | succ n ih =>
    rw [show List.range (n + 1) = List.range n ++ [n] from List.range_succ n,
      List.flatMap_append, ← ih, Nat.succ_mul, List.range_add]
    simp [Nat.mul_comm, Nat.add_comm]

/-- The sample bits a writer extracts from one bulk append of the first
`n` bytes of transposed row `k` are exactly the table's logical bits at
majors `0..8n-1`, minor `k`. -/
theorem deliveredBits_transposed_row (t : BitTable) (k n : Nat) :
    deliveredBits [WriterEvent.writeBytes (transposed_row t k n)] =
      (List.range (n * 8)).map (fun j => tableBit t j k) := by
  have h1 : deliveredBits [WriterEvent.writeBytes (transposed_row t k n)] =
      (transposed_row t k n).flatMap byteBits := by
    simp [deliveredBits, eventBits]
  rw [h1, transposed_row, List.flatMap_map, range_mul_eight, List.map_flatMap]
  refine List.flatMap_congr (fun b _ => ?_)
  rw [byteBits_packBits, List.map_map]
  rfl

/-- Fan-out of a whole sequence of `batch_write_bit` calls under a
non-packed format: writer `k` receives one `write_bit` per row, carrying
bit `k` of that row. -/
theorem foldl_batch_write_bit_serial (rows : List (List Nat)) (s : BatchWriter)
    (hfmt : s.output_format ≠ SampleFormat.SAMPLE_FORMAT_PTB64)
    (k : Nat) (hk : k < s.events.length) :
    (rows.foldl batch_write_bit s).events.getD k [] =
      s.events.getD k [] ++ rows.map (fun r => WriterEvent.writeBit (bitAt r k)) := by
  induction rows generalizing s with
  | nil => simp
  | cons r rest ih =>
    have hf : (batch_write_bit s r).output_format ≠ SampleFormat.SAMPLE_FORMAT_PTB64 := by
      rw [batch_write_bit_format]; exact hfmt
    have hl : k < (batch_write_bit s r).events.length := by
      rw [batch_write_bit_length]; exact hk
    rw [List.foldl_cons, ih (batch_write_bit s r) hf hl,
      batch_write_bit_serial_getD s r hfmt k hk, List.append_assoc]
    rfl

theorem recordedSamples_append (es more : List WriterEvent) :
    recordedSamples (es ++ more) = recordedSamples es + recordedSamples more := by
  simp [recordedSamples]

theorem appendEach_congr (evs : List (List WriterEvent)) (f g : Nat → List WriterEvent)
    (h : ∀ k, k < evs.length → f k = g k) : appendEach evs f = appendEach evs g := by
  induction evs generalizing f g with
  | nil => rfl
  | cons es rest ih =>
    show (es ++ f 0) :: _ = (es ++ g 0) :: _
    rw [h 0 (by simp), ih (fun j => f (j + 1)) (fun j => g (j + 1))
      (fun j hj => h (j + 1) (by simpa using Nat.succ_lt_succ hj))]

/-! Claim theorems. -/

/-- Claim C1: for every writer count N ≥ 1, both sample formats, and any
interleaving of single-row and bulk batch calls, the byte stream on the
output channel after `write_end` equals writer 0's directly-written bytes
followed, in ascending writer-index order, by writers 1..N-1's
independently-framed bytes — identical to a reference implementation that
writes all N writers to separate buffers and concatenates them. -/
theorem claim_c1 (fmt : SampleFormat) (N : Nat) (ops : List Op)
    (encode : List WriterEvent → List Nat) (hN : 1 ≤ N) :
    write_end_out encode (applyOps (initWriter fmt N) ops) =
      reference_out encode (applyOps (initWriter fmt N) ops) := by
  have hlen : (applyOps (initWriter fmt N) ops).events.length = N := by
    rw [applyOps_length]; simp [initWriter]
  rcases h : (applyOps (initWriter fmt N) ops).events with _ | ⟨e0, rest⟩
  · rw [h] at hlen; simp at hlen; omega
  · simp [write_end_out, reference_out, h]

theorem claim_c1_witness :
    write_end_out (fun es => List.replicate es.length 7)
        (applyOps (initWriter SampleFormat.SAMPLE_FORMAT_01 2)
          [Op.bit [1], Op.bytes { data := [3, 4], num_minor_u8_padded := 2 } 1]) =
      reference_out (fun es => List.replicate es.length 7)
        (applyOps (initWriter SampleFormat.SAMPLE_FORMAT_01 2)
          [Op.bit [1], Op.bytes { data := [3, 4], num_minor_u8_padded := 2 } 1]) :=
  claim_c1 SampleFormat.SAMPLE_FORMAT_01 2
    [Op.bit [1], Op.bytes { data := [3, 4], num_minor_u8_padded := 2 } 1]
    (fun es => List.replicate es.length 7) (by decide)

/-- Claim C2 counterexample: under `SAMPLE_FORMAT_PTB64` with 16 writers and
`num_major_u64 = 1`, take k = 1, w = 0: the 8 bytes at buffer offset
`1*8 + stride*0 = 8` are claimed to be delivered to the writers in range
[8, 16); in fact no writer in [8, 16) receives that 8-byte group — writer 1
alone does. -/
theorem claim_c2_counterexample :
    (∀ j, j < 16 → 8 ≤ j →
      (batch_write_bytes
          { output_format := SampleFormat.SAMPLE_FORMAT_PTB64, events := List.replicate 16 [] }
          { data := List.range 128, num_minor_u8_padded := 128 } 1).events.getD j [] ≠
        [WriterEvent.writeBytes (bytesRange (List.range 128) (1 * 8 + 128 * 0) 8)])
    ∧ (batch_write_bytes
          { output_format := SampleFormat.SAMPLE_FORMAT_PTB64, events := List.replicate 16 [] }
          { data := List.range 128, num_minor_u8_padded := 128 } 1).events.getD 1 [] =
        [WriterEvent.writeBytes (bytesRange (List.range 128) (1 * 8 + 128 * 0) 8)] := by
  constructor
  · decide
  · decide

/-- Claim C2 (amended): under `SAMPLE_FORMAT_PTB64`, for each writer index k
and each major block w < num_major_u64, the 8 bytes written verbatim are
those at table buffer offset `k*8 + stride*w`, and they are delivered to
writer k alone (covering minor lanes [64k, 64k+64)); per the modelled
BitTable packing convention, bit i of delivered byte b encodes the table's
logical bit at major w, minor `64k + 8b + i`. -/
theorem claim_c2_amended (s : BatchWriter) (t : BitTable) (n k w : Nat)
    (hfmt : s.output_format = SampleFormat.SAMPLE_FORMAT_PTB64)
    (hk : k < s.events.length) (hw : w < n) :
    (batch_write_bytes s t n).events.getD k [] =
      s.events.getD k [] ++ (List.range n).map
        (fun v => WriterEvent.writeBytes (bytesRange t.data (k * 8 + t.num_minor_u8_padded * v) 8))
    ∧ (∀ b i, b < 8 → i < 8 →
        Nat.testBit ((bytesRange t.data (k * 8 + t.num_minor_u8_padded * w) 8).getD b 0) i =
          tableBit t w (64 * k + 8 * b + i)) := by
  refine ⟨batch_write_bytes_ptb64_getD s t n hfmt k hk, fun b i hb hi => ?_⟩
  have hbytes : (bytesRange t.data (k * 8 + t.num_minor_u8_padded * w) 8).getD b 0 =
      t.data.getD (k * 8 + t.num_minor_u8_padded * w + b) 0 := by
    simp [bytesRange, List.getD_eq_getElem?_getD, List.getElem?_map, List.getElem?_range, hb]
  rw [hbytes]
  unfold tableBit bitAt
  rw [Nat.mul_assoc]
  have h1 : (8 * (t.num_minor_u8_padded * w) + (64 * k + 8 * b + i)) / 8 =
      k * 8 + t.num_minor_u8_padded * w + b := by omega
  have h2 : (8 * (t.num_minor_u8_padded * w) + (64 * k + 8 * b + i)) % 8 = i := by omega
  rw [h1, h2]

theorem claim_c2_witness :
    (batch_write_bytes { output_format := SampleFormat.SAMPLE_FORMAT_PTB64, events := [[], []] }
        { data := List.range 48, num_minor_u8_padded := 16 } 2).events.getD 1 [] =
      ([[], []] : List (List WriterEvent)).getD 1 [] ++ (List.range 2).map
        (fun v => WriterEvent.writeBytes (bytesRange (List.range 48) (1 * 8 + 16 * v) 8))
    ∧ (∀ b i, b < 8 → i < 8 →
        Nat.testBit ((bytesRange (List.range 48) (1 * 8 + 16 * 1) 8).getD b 0) i =
          tableBit { data := List.range 48, num_minor_u8_padded := 16 } 1 (64 * 1 + 8 * b + i)) :=
  claim_c2_amended { output_format := SampleFormat.SAMPLE_FORMAT_PTB64, events := [[], []] }
    { data := List.range 48, num_minor_u8_padded := 16 } 2 1 1 rfl (by decide) (by decide)

/-- Claim C3 counterexample: with N = 2 writers under `SAMPLE_FORMAT_PTB64`,
the claim says the row is ⌈2/64⌉ = 1 group of 8 bytes serving the first 64
consecutive writers, so writers 0 and 1 would receive the same group; but
the code gives each writer its own 8-byte group — writer 1 receives bytes
[8, 16), different from writer 0's bytes [0, 8). -/
theorem claim_c3_counterexample :
    (batch_write_bit { output_format := SampleFormat.SAMPLE_FORMAT_PTB64, events := [[], []] }
        (List.range 16)).events.getD 1 [] =
      [WriterEvent.writeBytes [8, 9, 10, 11, 12, 13, 14, 15]]
    ∧ (batch_write_bit { output_format := SampleFormat.SAMPLE_FORMAT_PTB64, events := [[], []] }
        (List.range 16)).events.getD 1 [] ≠
      (batch_write_bit { output_format := SampleFormat.SAMPLE_FORMAT_PTB64, events := [[], []] }
        (List.range 16)).events.getD 0 [] := by
  decide

/-- Claim C3 (amended): under `TRANSPOSED_PACKED_64`, `batch_write_bit(row)`
interprets the row as N groups of 8 bytes, one group per writer in
writer-ascending order (group k = row bytes [8k, 8k+8)), and copies each
8-byte group verbatim to its writer without any per-bit decoding. -/
theorem claim_c3_amended (s : BatchWriter) (bits : List Nat) (k : Nat)
    (hfmt : s.output_format = SampleFormat.SAMPLE_FORMAT_PTB64)
    (hk : k < s.events.length) :
    (batch_write_bit s bits).events.getD k [] =
      s.events.getD k [] ++ [WriterEvent.writeBytes (bytesRange bits (8 * k) 8)]
    ∧ (bytesRange bits (8 * k) 8).length = 8 :=
  ⟨batch_write_bit_ptb64_getD s bits hfmt k hk, by simp [bytesRange]⟩

theorem claim_c3_witness :
    (batch_write_bit { output_format := SampleFormat.SAMPLE_FORMAT_PTB64, events := [[], []] }
        (List.range 16)).events.getD 0 [] =
      ([[], []] : List (List WriterEvent)).getD 0 [] ++
        [WriterEvent.writeBytes (bytesRange (List.range 16) (8 * 0) 8)]
    ∧ (bytesRange (List.range 16) (8 * 0) 8).length = 8 :=
  claim_c3_amended { output_format := SampleFormat.SAMPLE_FORMAT_PTB64, events := [[], []] }
    (List.range 16) 0 rfl (by decide)

/-- Claim C4 counterexample: under `SAMPLE_FORMAT_PTB64` with one writer and
an 8-byte row, one `batch_write_bit` call grows the writer's recorded sample
count by 64, not by exactly one. -/
theorem claim_c4_counterexample :
    ¬ (recordedSamples ((batch_write_bit
          { output_format := SampleFormat.SAMPLE_FORMAT_PTB64, events := [[]] }
          (List.replicate 8 0)).events.getD 0 []) =
        recordedSamples (([[]] : List (List WriterEvent)).getD 0 []) + 1) := by
  decide

/-- Claim C4 (amended): for every `batch_write_bit` call, each writer's
recorded sample count grows by exactly one under every non-packed format,
and by exactly 64 (one 8-byte bulk append) under `SAMPLE_FORMAT_PTB64`. -/
theorem claim_c4_amended (s : BatchWriter) (bits : List Nat) (k : Nat)
    (hk : k < s.events.length) :
    recordedSamples ((batch_write_bit s bits).events.getD k []) =
      recordedSamples (s.events.getD k []) +
        (if s.output_format = SampleFormat.SAMPLE_FORMAT_PTB64 then 64 else 1) := by
  by_cases hfmt : s.output_format = SampleFormat.SAMPLE_FORMAT_PTB64
  · rw [if_pos hfmt, batch_write_bit_ptb64_getD s bits hfmt k hk, recordedSamples_append]
    simp [recordedSamples, eventSampleCount, bytesRange]
  · rw [if_neg hfmt, batch_write_bit_serial_getD s bits hfmt k hk, recordedSamples_append]
    simp [recordedSamples, eventSampleCount]

theorem claim_c4_witness :
    recordedSamples ((batch_write_bit
        { output_format := SampleFormat.SAMPLE_FORMAT_01, events := [[], []] }
        [3]).events.getD 1 []) =
      recordedSamples (([[], []] : List (List WriterEvent)).getD 1 []) +
        (if SampleFormat.SAMPLE_FORMAT_01 = SampleFormat.SAMPLE_FORMAT_PTB64 then 64 else 1) :=
  claim_c4_amended { output_format := SampleFormat.SAMPLE_FORMAT_01, events := [[], []] }
    [3] 1 (by decide)

set_option maxRecDepth 10000 in
/-- Claim C5 counterexample: under `SAMPLE_FORMAT_PTB64` with one writer, 64
consecutive `batch_write_bit` calls (all-zero rows) deliver 64 eight-byte
groups (4096 sample bits) to the writer, while one `batch_write_bytes` call
with `num_major_u64 = 1` on the all-zero table delivers a single eight-byte
group (64 sample bits): the per-writer outputs differ. -/
theorem claim_c5_counterexample :
    deliveredBits (((List.replicate 64 (List.replicate 8 (0 : Nat))).foldl batch_write_bit
        { output_format := SampleFormat.SAMPLE_FORMAT_PTB64, events := [[]] }).events.getD 0 []) ≠
      deliveredBits ((batch_write_bytes
        { output_format := SampleFormat.SAMPLE_FORMAT_PTB64, events := [[]] }
        { data := List.replicate 8 0, num_minor_u8_padded := 8 } 1).events.getD 0 []) := by
  decide

/-- Claim C5 (amended): under every non-packed format, 64 consecutive
`batch_write_bit` calls deliver to each writer the same sample-bit stream as
one `batch_write_bytes` call with `num_major_u64 = 1` covering the same 64
samples; under `SAMPLE_FORMAT_PTB64` the matching correspondence is one
single `batch_write_bit` call, which produces the very same per-writer
deliveries as one `batch_write_bytes` call with `num_major_u64 = 1` on a
table with the same leading bytes. -/
theorem claim_c5_amended (s : BatchWriter) (t : BitTable) (rows : List (List Nat))
    (bits : List Nat) :
    (s.output_format ≠ SampleFormat.SAMPLE_FORMAT_PTB64 →
      (∀ k, k < s.events.length →
        rows.map (fun r => bitAt r k) = (List.range 64).map (fun j => tableBit t j k)) →
      ∀ k, k < s.events.length →
        deliveredBits ((rows.foldl batch_write_bit s).events.getD k []) =
          deliveredBits ((batch_write_bytes s t 1).events.getD k []))
    ∧ (s.output_format = SampleFormat.SAMPLE_FORMAT_PTB64 →
      (∀ j, j < 8 * s.events.length → bits.getD j 0 = t.data.getD j 0) →
      batch_write_bit s bits = batch_write_bytes s t 1) := by
  constructor
  · intro hfmt hsame k hk
    rw [foldl_batch_write_bit_serial rows s hfmt k hk,
      batch_write_bytes_serial_getD s t 1 hfmt k hk,
      deliveredBits_append, deliveredBits_append, deliveredBits_writeBitList,
      deliveredBits_transposed_row, hsame k hk]
  · intro hfmt hdata
    unfold batch_write_bit batch_write_bytes
    rw [if_pos hfmt, if_pos hfmt]
    have : appendEach s.events
          (fun k => [WriterEvent.writeBytes (bytesRange bits (8 * k) 8)]) =
        appendEach s.events
          (fun k => (List.range 1).map (fun w =>
            WriterEvent.writeBytes (bytesRange t.data (k * 8 + t.num_minor_u8_padded * w) 8))) := by
      refine appendEach_congr s.events _ _ (fun k hkl => ?_)
      have hbr : bytesRange bits (8 * k) 8 = bytesRange t.data (k * 8 + t.num_minor_u8_padded * 0) 8 := by
        refine List.map_congr_left (fun i hi => ?_)
        have hi8 : i < 8 := List.mem_range.mp hi
        have e1 : k * 8 + t.num_minor_u8_padded * 0 + i = 8 * k + i := by omega
        rw [e1]
        exact hdata (8 * k + i) (by omega)
      simp [List.range_succ, hbr]
    exact congrArg (fun evs => BatchWriter.mk s.output_format evs) this

theorem claim_c5_witness :
    (deliveredBits (((List.replicate 64 ([] : List Nat)).foldl batch_write_bit
        { output_format := SampleFormat.SAMPLE_FORMAT_01, events := [[]] }).events.getD 0 []) =
      deliveredBits ((batch_write_bytes
        { output_format := SampleFormat.SAMPLE_FORMAT_01, events := [[]] }
        { data := [], num_minor_u8_padded := 0 } 1).events.getD 0 []))
    ∧ (batch_write_bit { output_format := SampleFormat.SAMPLE_FORMAT_PTB64, events := [[]] }
        (List.replicate 8 0) =
      batch_write_bytes { output_format := SampleFormat.SAMPLE_FORMAT_PTB64, events := [[]] }
        { data := List.replicate 8 0, num_minor_u8_padded := 8 } 1) :=
  ⟨(claim_c5_amended { output_format := SampleFormat.SAMPLE_FORMAT_01, events := [[]] }
      { data := [], num_minor_u8_padded := 0 } (List.replicate 64 []) []).1
      (by decide) (by decide) 0 (by decide),
   (claim_c5_amended { output_format := SampleFormat.SAMPLE_FORMAT_PTB64, events := [[]] }
      { data := List.replicate 8 0, num_minor_u8_padded := 8 } [] (List.replicate 8 0)).2
      rfl (by decide)⟩

/-- Claim C6: under a non-packed (serial) format, `batch_write_bytes(table,
num_major_u64)` transposes the table into writer-major layout and gives each
writer k exactly one bulk append of its full contiguous run of
`num_major_u64 * 8` bytes (`num_major_u64 * 64` sample bits, the table's
logical bits at majors `0..64n-1`, minor k) taken from transposed row k. -/
theorem claim_c6 (s : BatchWriter) (t : BitTable) (n k : Nat)
    (hfmt : s.output_format ≠ SampleFormat.SAMPLE_FORMAT_PTB64)
    (hk : k < s.events.length) :
    (batch_write_bytes s t n).events.getD k [] =
      s.events.getD k [] ++ [WriterEvent.writeBytes (transposed_row t k (n * 8))]
    ∧ (transposed_row t k (n * 8)).length = n * 8
    ∧ deliveredBits [WriterEvent.writeBytes (transposed_row t k (n * 8))] =
        (List.range (n * 64)).map (fun j => tableBit t j k) := by
  refine ⟨batch_write_bytes_serial_getD s t n hfmt k hk, by simp [transposed_row], ?_⟩
  rw [deliveredBits_transposed_row t k (n * 8)]
  have e : n * 8 * 8 = n * 64 := by ring
  rw [e]

theorem claim_c6_witness :
    (batch_write_bytes { output_format := SampleFormat.SAMPLE_FORMAT_01, events := [[]] }
        { data := [1, 2], num_minor_u8_padded := 2 } 1).events.getD 0 [] =
      ([[]] : List (List WriterEvent)).getD 0 [] ++
        [WriterEvent.writeBytes
          (transposed_row { data := [1, 2], num_minor_u8_padded := 2 } 0 (1 * 8))]
    ∧ (transposed_row { data := [1, 2], num_minor_u8_padded := 2 } 0 (1 * 8)).length = 1 * 8
    ∧ deliveredBits [WriterEvent.writeBytes
          (transposed_row { data := [1, 2], num_minor_u8_padded := 2 } 0 (1 * 8))] =
        (List.range (1 * 64)).map
          (fun j => tableBit { data := [1, 2], num_minor_u8_padded := 2 } j 0) :=
  claim_c6 { output_format := SampleFormat.SAMPLE_FORMAT_01, events := [[]] }
    { data := [1, 2], num_minor_u8_padded := 2 } 1 0 (by decide) (by decide)

/-- Claim C7: under a non-packed (serial) format, `batch_write_bit(row)`
passes to each writer k's per-bit append exactly the single boolean at row
offset k. -/
theorem claim_c7 (s : BatchWriter) (bits : List Nat) (k : Nat)
    (hfmt : s.output_format ≠ SampleFormat.SAMPLE_FORMAT_PTB64)
    (hk : k < s.events.length) :
    (batch_write_bit s bits).events.getD k [] =
      s.events.getD k [] ++ [WriterEvent.writeBit (bitAt bits k)] :=
  batch_write_bit_serial_getD s bits hfmt k hk

theorem claim_c7_witness :
    (batch_write_bit { output_format := SampleFormat.SAMPLE_FORMAT_B8, events := [[], []] }
        [2]).events.getD 1 [] =
      ([[], []] : List (List WriterEvent)).getD 1 [] ++
        [WriterEvent.writeBit (bitAt [2] 1)] :=
  claim_c7 { output_format := SampleFormat.SAMPLE_FORMAT_B8, events := [[], []] }
    [2] 1 (by decide) (by decide)

/-- Claim C8: for every table and both formats, `batch_write_bytes(table, 0)`
appends no sample bytes to any writer and leaves the visible state unchanged:
format and writer count are preserved, every writer's delivered sample
stream is unchanged, and under `SAMPLE_FORMAT_PTB64` the state is literally
identical. -/
theorem claim_c8 (s : BatchWriter) (t : BitTable) :
    (batch_write_bytes s t 0).output_format = s.output_format
    ∧ (batch_write_bytes s t 0).events.length = s.events.length
    ∧ (∀ k, deliveredBits ((batch_write_bytes s t 0).events.getD k []) =
        deliveredBits (s.events.getD k []))
    ∧ (∀ evs, batch_write_bytes
        { output_format := SampleFormat.SAMPLE_FORMAT_PTB64, events := evs } t 0 =
        { output_format := SampleFormat.SAMPLE_FORMAT_PTB64, events := evs }) := by
  refine ⟨batch_write_bytes_format s t 0, batch_write_bytes_length s t 0, ?_, ?_⟩
  · intro k
    by_cases hk : k < s.events.length
    · by_cases hfmt : s.output_format = SampleFormat.SAMPLE_FORMAT_PTB64
      · rw [batch_write_bytes_ptb64_getD s t 0 hfmt k hk]
        simp
      · rw [batch_write_bytes_serial_getD s t 0 hfmt k hk, deliveredBits_append]
        simp [deliveredBits, eventBits, transposed_row]
    · have h1 : s.events.length ≤ k := Nat.le_of_not_lt hk
      have h2 : (batch_write_bytes s t 0).events.length ≤ k := by
        rw [batch_write_bytes_length]; exact h1
      rw [List.getD_eq_default _ _ h2, List.getD_eq_default _ _ h1]
  · intro evs
    unfold batch_write_bytes
    rw [if_pos rfl]
    exact congrArg (fun e => BatchWriter.mk SampleFormat.SAMPLE_FORMAT_PTB64 e)
      (appendEach_id evs _ (fun j => rfl))

/-- Claim C9: format dispatch is an equality test against
`SAMPLE_FORMAT_PTB64`, not a closed two-variant match: for every
output_format value other than `SAMPLE_FORMAT_PTB64` (not only the serial
format the spec models), `batch_write_bit` takes the per-bit fan-out path
and `batch_write_bytes` takes the transpose-and-bulk-append path. -/
theorem claim_c9 (s : BatchWriter) (bits : List Nat) (t : BitTable) (n : Nat)
    (hfmt : s.output_format ≠ SampleFormat.SAMPLE_FORMAT_PTB64) :
    batch_write_bit s bits =
      BatchWriter.mk s.output_format
        (appendEach s.events (fun k => [WriterEvent.writeBit (bitAt bits k)]))
    ∧ batch_write_bytes s t n =
      BatchWriter.mk s.output_format
        (appendEach s.events
          (fun k => [WriterEvent.writeBytes (transposed_row t k (n * 8))])) := by
  constructor
  · unfold batch_write_bit
    rw [if_neg hfmt]
  · unfold batch_write_bytes
    rw [if_neg hfmt]

theorem claim_c9_witness :
    batch_write_bit { output_format := SampleFormat.SAMPLE_FORMAT_DETS, events := [[]] } [1] =
      BatchWriter.mk SampleFormat.SAMPLE_FORMAT_DETS
        (appendEach [[]] (fun k => [WriterEvent.writeBit (bitAt [1] k)]))
    ∧ batch_write_bytes { output_format := SampleFormat.SAMPLE_FORMAT_DETS, events := [[]] }
        { data := [5], num_minor_u8_padded := 1 } 1 =
      BatchWriter.mk SampleFormat.SAMPLE_FORMAT_DETS
        (appendEach [[]] (fun k =>
          [WriterEvent.writeBytes
            (transposed_row { data := [5], num_minor_u8_padded := 1 } k (1 * 8))])) :=
  claim_c9 { output_format := SampleFormat.SAMPLE_FORMAT_DETS, events := [[]] } [1]
    { data := [5], num_minor_u8_padded := 1 } 1 (by decide)

/-- Claim C10: under `SAMPLE_FORMAT_PTB64`, `batch_write_bit(bits)` reads 8
bytes per writer, delivering byte range [8k, 8k+8) of the input row (64
sample bits, not a single bit, so the doc comment's per-bit identification
does not describe this branch) to writer k; if every byte index the branch
reads is in bounds, the row holds at least `8 * N` bytes. -/
theorem claim_c10 (s : BatchWriter) (bits : List Nat) (k : Nat)
    (hfmt : s.output_format = SampleFormat.SAMPLE_FORMAT_PTB64)
    (hk : k < s.events.length) :
    (batch_write_bit s bits).events.getD k [] =
      s.events.getD k [] ++ [WriterEvent.writeBytes (bytesRange bits (8 * k) 8)]
    ∧ ((∀ j, j < 8 * s.events.length → j < bits.length) →
        8 * s.events.length ≤ bits.length)
    ∧ (deliveredBits [WriterEvent.writeBytes (bytesRange bits (8 * k) 8)]).length = 64 := by
  refine ⟨batch_write_bit_ptb64_getD s bits hfmt k hk, fun h => ?_, ?_⟩
  · rcases Nat.eq_zero_or_pos s.events.length with h0 | h0
    · omega
    · have := h (8 * s.events.length - 1) (by omega)
      omega
  · have hd : deliveredBits [WriterEvent.writeBytes (bytesRange bits (8 * k) 8)] =
        (bytesRange bits (8 * k) 8).flatMap byteBits := by
      simp [deliveredBits, eventBits]
    rw [hd, List.length_flatMap]
    have hc : List.map (List.length ∘ byteBits) (bytesRange bits (8 * k) 8) =
        List.map (fun v => 8) (bytesRange bits (8 * k) 8) :=
      List.map_congr_left (fun v _ => by simp [byteBits])
    rw [hc, List.map_const', List.sum_const_nat]
    simp [bytesRange]

theorem claim_c10_witness :
    (batch_write_bit { output_format := SampleFormat.SAMPLE_FORMAT_PTB64, events := [[], []] }
        (List.range 16)).events.getD 1 [] =
      ([[], []] : List (List WriterEvent)).getD 1 [] ++
        [WriterEvent.writeBytes (bytesRange (List.range 16) (8 * 1) 8)]
    ∧ ((∀ j, j < 8 * ([[], []] : List (List WriterEvent)).length → j < (List.range 16).length) →
        8 * ([[], []] : List (List WriterEvent)).length ≤ (List.range 16).length)
    ∧ (deliveredBits [WriterEvent.writeBytes (bytesRange (List.range 16) (8 * 1) 8)]).length = 64 :=
  claim_c10 { output_format := SampleFormat.SAMPLE_FORMAT_PTB64, events := [[], []] }
    (List.range 16) 1 rfl (by decide)

end StimBatch
